import Mathlib

/-!
Verification of the merchant-grouping and period-filtered aggregation engine
of a browser budget dashboard (source: src/js/main.js,
src/js/services/merchant-cleaner.js, src/js/modules/sheets-api.js).

The JavaScript source is shallowly embedded: strings are Lean strings
(processed as lists of characters), JS numbers used as integers or exact
amounts become Int or Rat, the mutable application state becomes an explicit
state record threaded through the operations, and the asynchronous network
calls become explicit outcome parameters.  The regular expressions of the
cleaning service are small fixed patterns and are embedded as executable
matching functions with the JavaScript (leftmost match, lazy group,
case-insensitive test) semantics spelled out.  JS Date values are modelled
in a fixed-offset (DST-free) calendar via the standard civil-from-days
correspondence; case folding is modelled on ASCII, which covers all pattern
letters in the source.
-/

/-! ## Character helpers (JS character classes) -/

/-- The characters the embedded patterns treat as whitespace: the common
members of the JS regex class for whitespace (space, tab, LF, VT, FF, CR,
NBSP). -/
def isWsC (c : Char) : Bool :=
  [' ', Char.ofNat 9, Char.ofNat 10, Char.ofNat 11, Char.ofNat 12,
   Char.ofNat 13, Char.ofNat 160].contains c

/-- Line terminators, which the JS dot metacharacter does not match. -/
def isNlC (c : Char) : Bool :=
  c == Char.ofNat 10 || c == Char.ofNat 13 ||
  c == Char.ofNat 0x2028 || c == Char.ofNat 0x2029

/-- A character the JS dot metacharacter matches. -/
def dotC (c : Char) : Bool := !(isNlC c)

/-- The apostrophe character (U+0027). -/
def aposChar : Char := Char.ofNat 39

/-- Strip leading whitespace. -/
def dropLeadWs (l : List Char) : List Char := l.dropWhile isWsC

/-- Strip trailing whitespace. -/
def dropTrailWs (l : List Char) : List Char :=
  (l.reverse.dropWhile isWsC).reverse

/-- JS String.prototype.trim on a character list. -/
def trimL (l : List Char) : List Char := dropTrailWs (dropLeadWs l)

/-- Remove the literal pattern from the front of the list, if present. -/
def dropPre : List Char → List Char → Option (List Char)
  | [], l => some l
  | _ :: _, [] => none
  | p :: ps, c :: cs => if c = p then dropPre ps cs else none

/-- Does the list start with the literal pattern? -/
def startsWithL (p l : List Char) : Bool := (dropPre p l).isSome

/-- Does some suffix of the list satisfy the predicate?  Used for
unanchored regex test semantics (the match may begin anywhere). -/
def anySuffix (p : List Char → Bool) : List Char → Bool
  | [] => p []
  | c :: cs => p (c :: cs) || anySuffix p cs

/-! ## NameNormalizer: regex rules of merchant-cleaner.js

The rule table of initializeRegexPatterns, in source order.  The brand
rules (rules 1-7) are tested case-insensitively and unanchored; since their
trailing parts may each match the empty string, a test succeeds exactly
when the mandatory literal core occurs (with its flexible separators).
Tests run on the lowercased trimmed input. -/

def lcWal : List Char := ['w', 'a', 'l']
def lcMart : List Char := ['m', 'a', 'r', 't']
def lcWalmart : List Char := ['w', 'a', 'l', 'm', 'a', 'r', 't']
def lcCostco : List Char := ['c', 'o', 's', 't', 'c', 'o']
def lcTim : List Char := ['t', 'i', 'm']
def lcHorton : List Char := ['h', 'o', 'r', 't', 'o', 'n']
def lcMcdonalds : List Char := ['m', 'c', 'd', 'o', 'n', 'a', 'l', 'd', 's']
def lcMcdonaldApos : List Char :=
  ['m', 'c', 'd', 'o', 'n', 'a', 'l', 'd', aposChar, 's']
def lcShopper : List Char := ['s', 'h', 'o', 'p', 'p', 'e', 'r']
def lcDrug : List Char := ['d', 'r', 'u', 'g']

/-- Match of rule 1 at a position: wal, then an optional hyphen or single
whitespace character, then mart. -/
def walmart1At (l : List Char) : Bool :=
  match dropPre lcWal l with
  | none => false
  | some r =>
    startsWithL lcMart r ||
    (match r with
     | c :: r2 => (c == '-' || isWsC c) && startsWithL lcMart r2
     | [] => false)

def testWalmart1 (l : List Char) : Bool := anySuffix walmart1At l

def testWalmart2 (l : List Char) : Bool :=
  anySuffix (fun r => startsWithL lcWalmart r) l

def testCostco (l : List Char) : Bool :=
  anySuffix (fun r => startsWithL lcCostco r) l

/-- Match of rule 4 at a position: tim, any run of whitespace, horton
(the trailing optional s and store number may match empty). -/
def timAt (l : List Char) : Bool :=
  match dropPre lcTim l with
  | none => false
  | some r => startsWithL lcHorton (dropLeadWs r)

def testTim (l : List Char) : Bool := anySuffix timAt l

/-- Rule 5: mcdonald, optional apostrophe, s. -/
def mcdAt (l : List Char) : Bool :=
  startsWithL lcMcdonaldApos l || startsWithL lcMcdonalds l

def testMcd1 (l : List Char) : Bool := anySuffix mcdAt l

def testMcd2 (l : List Char) : Bool :=
  anySuffix (fun r => startsWithL lcMcdonalds r) l

/-- After the optional s of shoppers: whitespace run, drug, whitespace run,
mart. -/
def drugMartAfter (r : List Char) : Bool :=
  match dropPre lcDrug (dropLeadWs r) with
  | none => false
  | some y => startsWithL lcMart (dropLeadWs y)

/-- Rule 7 at a position: shopper, optional s, then drug ... mart. -/
def shoppersAt (l : List Char) : Bool :=
  match dropPre lcShopper l with
  | none => false
  | some r =>
    (match r with
     | c :: r2 => c == 's' && drugMartAfter r2
     | [] => false) || drugMartAfter r

def testShoppers (l : List Char) : Bool := anySuffix shoppersAt l

def walMartName : String := "Wal-Mart"
def costcoName : String := "Costco"
def timHortonsName : String := "Tim Hortons"
def mcdName : String :=
  String.mk (['M', 'c', 'D', 'o', 'n', 'a', 'l', 'd'] ++ [aposChar, 's'])
def shoppersName : String := "Shoppers Drug Mart"

/-- First matching brand rule (rules 1-7 of the table, in order) on the
lowercased trimmed input, and the fixed clean name it yields. -/
def brandMatch (l : List Char) : Option String :=
  if testWalmart1 l then some walMartName
  else if testWalmart2 l then some walMartName
  else if testCostco l then some costcoName
  else if testTim l then some timHortonsName
  else if testMcd1 l then some mcdName
  else if testMcd2 l then some mcdName
  else if testShoppers l then some shoppersName
  else none

/-! Rule 8 is the anchored generic store-number rule with a lazy capture
group and replacement by the capture.  The JS engine finds the shortest
nonempty prefix of dot-matchable characters after which the remainder is
a whitespace run, a hash, at least one digit, and then dot-matchable
characters to the end; the replacement is that prefix. -/

/-- Remainder check for rule 8: whitespace run, hash, a digit, rest
dot-matchable. -/
def tail8Ok (rest : List Char) : Bool :=
  match dropLeadWs rest with
  | c :: d :: t => c == '#' && d.isDigit && t.all dotC
  | _ => false

def rule8Go (acc : List Char) : List Char → Option (List Char)
  | [] => none
  | c :: rest =>
    if isNlC c then none
    else if tail8Ok rest then some (acc ++ [c])
    else rule8Go (acc ++ [c]) rest

/-- Result of applying rule 8 (pattern caret (.+?) ws* hash digits .* dollar,
replacement by the capture), when it matches. -/
def rule8 (l : List Char) : Option (List Char) := rule8Go [] l

/-- Remainder check for rule 9: whitespace run, at least four digits, rest
dot-matchable. -/
def tail9Ok (rest : List Char) : Bool :=
  match dropLeadWs rest with
  | a :: b :: c :: d :: t =>
    a.isDigit && b.isDigit && c.isDigit && d.isDigit && t.all dotC
  | _ => false

def rule9Go (acc : List Char) : List Char → Option (List Char)
  | [] => none
  | c :: rest =>
    if isNlC c then none
    else if tail9Ok rest then some (acc ++ [c])
    else rule9Go (acc ++ [c]) rest

/-- Result of applying rule 9 (location-code rule, four or more digits),
when it matches. -/
def rule9 (l : List Char) : Option (List Char) := rule9Go [] l

/-! Rule 10 is the stateful arm: its pattern carries the global flag, so
its test starts searching at the persistent lastIndex of the regex object and
updates it (to the end of the found whitespace run on success, to zero on
failure).  Moreover its replacement string is the single space, which does
not contain the capture reference, so the loop takes the fixed-name branch
and assigns the whole cleaned string to one space; the final trim then
returns the empty string.  The lastIndex of that one regex object is the
only mutable instance state of the cleaner that the rules read, and it is
threaded through the embedding explicitly. -/

/-- The test of rule 10 at a given lastIndex: the end position of the first
maximal whitespace run starting at or after lastIndex, when there is one. -/
def wsIdxFrom : List Char → Option Nat
  | [] => none
  | c :: cs =>
    if isWsC c then some 0
    else
      match wsIdxFrom cs with
      | none => none
      | some j => some (j + 1)

def wsRunEndFrom (cs : List Char) (li : Nat) : Option Nat :=
  match wsIdxFrom (cs.drop li) with
  | none => none
  | some j => some (li + j + ((cs.drop (li + j)).takeWhile isWsC).length)

/-- cleanWithRegex of merchant-cleaner.js: guard on empty input, trim,
apply the first matching rule of the table (first-match-wins), trim the
result.  The second argument and the second component are the persistent
lastIndex of the rule-10 global regex before and after the call; rules 1-9
are flagless and stateless.  When rule 10 fires, the source assigns the
fixed replacement (one space, which contains no capture reference) to the
whole string, so the trimmed result is empty. -/
def cleanWithRegex (s : String) (li : Nat) : String × Nat :=
  if s = "" then (s, li)
  else
    match brandMatch ((trimL s.data).map Char.toLower) with
    | some b => (String.mk (trimL b.data), li)
    | none =>
      match rule8 (trimL s.data) with
      | some p => (String.mk (trimL p), li)
      | none =>
        match rule9 (trimL s.data) with
        | some p => (String.mk (trimL p), li)
        | none =>
          match wsRunEndFrom (trimL s.data) li with
          | some li2 => (String.mk (trimL [' ']), li2)
          | none => (String.mk (trimL (trimL s.data)), 0)

/-! ## cleanWithGPT4 / cleanMerchantName

The external fetch is modelled by an explicit outcome: a network-level
error, or a response with its ok flag and the optional trimmed nonempty
message content.  The memo cache is passed as an association list; within
one call the source never reads an entry it wrote in the same call, so a
read-only cache parameter is observationally faithful for the returned
value. -/

/-- Outcome of the external completion request: error is a thrown network
failure; ok carries the response.ok flag and the trimmed content, none
standing for absent or empty content. -/
def FetchOutcome : Type := Except Unit (Bool × Option String)

def lookupS : List (String × String) → String → Option String
  | [], _ => none
  | (k, v) :: t, s => if k = s then some v else lookupS t s

/-- cleanWithGPT4: throws when no API key is configured; returns the cached
name on a cache hit; otherwise the inner try/catch absorbs every failure of
the request and falls back to a fresh regex cleaning of the raw name (which
reads and advances the rule-10 lastIndex). -/
def cleanWithGPT4 (name : String) (apiKey : Bool)
    (cache : List (String × String)) (fetch : FetchOutcome) (li : Nat) :
    Except String String × Nat :=
  if !apiKey then (Except.error "OpenAI API key not configured", li)
  else
    match lookupS cache name with
    | some v => (Except.ok v, li)
    | none =>
      match fetch with
      | Except.error _ =>
        (Except.ok (cleanWithRegex name li).1, (cleanWithRegex name li).2)
      | Except.ok (false, _) =>
        (Except.ok (cleanWithRegex name li).1, (cleanWithRegex name li).2)
      | Except.ok (true, none) =>
        (Except.ok (cleanWithRegex name li).1, (cleanWithRegex name li).2)
      | Except.ok (true, some c) => (Except.ok c, li)

/-- cleanMerchantName: regex first; keep a significant regex change; else
delegate to the semantic cleaner when a key is present, its own failure
caught and replaced by the entry regex result (that outer catch is dead:
with a key present cleanWithGPT4 only returns).  The rule-10 lastIndex is
threaded through the entry regex call into the semantic path. -/
def cleanMerchantName (name : String) (apiKey : Bool)
    (cache : List (String × String)) (fetch : FetchOutcome) (li : Nat) :
    Except String String × Nat :=
  if name = "" then (Except.ok name, li)
  else if (cleanWithRegex name li).1 ≠ name ∧
      ((cleanWithRegex name li).1).length > 3 then
    (Except.ok (cleanWithRegex name li).1, (cleanWithRegex name li).2)
  else if apiKey then
    match cleanWithGPT4 name apiKey cache fetch (cleanWithRegex name li).2 with
    | (Except.ok v, li2) => (Except.ok v, li2)
    | (Except.error _, li2) => (Except.ok (cleanWithRegex name li).1, li2)
  else (Except.ok (cleanWithRegex name li).1, (cleanWithRegex name li).2)

/-- A fetch outcome that represents a failure of the semantic cleaning
call in any of its forms. -/
def FetchFails (f : FetchOutcome) : Prop :=
  f = Except.error () ∨ (∃ c, f = Except.ok (false, c)) ∨
  f = Except.ok (true, none)

/-! ## SimilarityGrouper (findSimilarMerchants of main.js)

normalizeKey is the normalization chain of findSimilarMerchants:
lowercase, strip the maximal trailing run of hashes, digits, hyphens and
whitespace, strip one trailing business-entity word (with its optional dot
and the whitespace run before it), remove the remaining characters that are
neither word characters nor whitespace, trim. -/

def isJunkTail (c : Char) : Bool := c == '#' || c.isDigit || c == '-' || isWsC c

/-- Replacement of the trailing junk run (regex class hash digit hyphen
whitespace, anchored at the end) by the empty string. -/
def stripTrailJunk (l : List Char) : List Char :=
  (l.reverse.dropWhile isJunkTail).reverse

def bizWords : List (List Char) :=
  [['i', 'n', 'c'], ['l', 't', 'd'], ['l', 'l', 'c'], ['c', 'o', 'r', 'p'],
   ['c', 'o'], ['s', 't', 'o', 'r', 'e'],
   ['l', 'o', 'c', 'a', 't', 'i', 'o', 'n']]

/-- Does the body end with the given word, preceded by at least one
whitespace character? -/
def endsWithBiz (body w : List Char) : Bool :=
  body.length > w.length && body.drop (body.length - w.length) == w &&
  (match (body.take (body.length - w.length)).getLast? with
   | some c => isWsC c
   | none => false)

/-- One replacement of the business-suffix pattern (whitespace run, one of
the entity words, optional dot, end of string) by the empty string: the
leftmost match starts at the whitespace run directly before the word, so
the word, the optional dot and that whole run are removed. -/
def stripBiz (l : List Char) : List Char :=
  let body :=
    match l.getLast? with
    | some c => if c = '.' then l.dropLast else l
    | none => l
  match bizWords.find? (endsWithBiz body) with
  | some w => dropTrailWs (body.take (body.length - w.length))
  | none => l

/-- A word character or whitespace survives the third replacement. -/
def keepNonWord (c : Char) : Bool := c.isAlphanum || c == '_' || isWsC c

def stripNonWord (l : List Char) : List Char := l.filter keepNonWord

/-- The normalized comparison key of findSimilarMerchants. -/
def normalizeKey (s : String) : String :=
  String.mk (trimL (stripNonWord (stripBiz (stripTrailJunk (s.data.map Char.toLower)))))

structure NMerchant where
  original : String
  normalized : String
  count : Nat
deriving DecidableEq

structure MGroup where
  groupName : String
  merchants : List (String × Nat)
deriving DecidableEq

/-- The raw merchant names of a proposed group. -/
def gnames (g : MGroup) : List String := g.merchants.map Prod.fst

/-- Stable insertion for the descending-by-count sort (the JS comparator
b.count - a.count under a stable Array.sort). -/
def insertDesc (x : NMerchant) : List NMerchant → List NMerchant
  | [] => [x]
  | y :: ys => if x.count ≥ y.count then x :: y :: ys else y :: insertDesc x ys

def sortDesc : List NMerchant → List NMerchant
  | [] => []
  | x :: xs => insertDesc x (sortDesc xs)

/-- Separator class of the group-name split (whitespace, hash, digit,
hyphen). -/
def sepC (c : Char) : Bool := isWsC c || c == '#' || c.isDigit || c == '-'

/-- First token of the split at separator runs, trimmed: the prefix of the
string before its first separator character. -/
def firstToken (s : String) : String :=
  String.mk (trimL (s.data.takeWhile (fun c => !sepC c)))

/-- Group construction: the matched merchants are sorted descending by
count in place (the JS sort mutates the array before it is pushed), the
group name is the first token of the top member. -/
def mkGroup (m : NMerchant) (similar : List NMerchant) : MGroup :=
  MGroup.mk
    (match sortDesc (m :: similar) with
     | b :: _ => firstToken b.original
     | [] => "")
    ((sortDesc (m :: similar)).map (fun x => (x.original, x.count)))

/-- The forEach loop of findSimilarMerchants: groups accumulate in
encounter order, processed is the set of names already placed in a group. -/
def groupLoop (all : List NMerchant) :
    List NMerchant → List MGroup → List String → List MGroup
  | [], groups, _ => groups
  | m :: rest, groups, processed =>
    if m.original ∈ processed then groupLoop all rest groups processed
    else
      match all.filter (fun o =>
        decide (o.original ∉ processed ∧ o.normalized = m.normalized ∧
                o.original ≠ m.original)) with
      | [] => groupLoop all rest groups processed
      | z :: zs =>
        groupLoop all rest (groups ++ [mkGroup m (z :: zs)])
          (processed ++ (m :: z :: zs).map (fun x => x.original))

/-- findSimilarMerchants: normalize every name, then cluster exact matches
of the normalized key (keys of the counts map, so the names are distinct). -/
def findSimilarMerchants (merchants : List String) (counts : String → Nat) :
    List MGroup :=
  let all := merchants.map (fun s => NMerchant.mk s (normalizeKey s) (counts s))
  groupLoop all all [] []

/-- x has another merchant in the input with the same normalized key. -/
def HasPartner (all : List NMerchant) (x : NMerchant) : Prop :=
  ∃ y, y ∈ all ∧ y.normalized = x.normalized ∧ y.original ≠ x.original

/-- A well-formed emitted group: its member names are exactly the names of
the input merchants with some fixed key, they come from the input, and the
group has two members with distinct names. -/
def GroupOK (all : List NMerchant) (g : MGroup) : Prop :=
  ∃ k, (∀ x, x ∈ all → (x.original ∈ gnames g ↔ x.normalized = k)) ∧
    (∀ s, s ∈ gnames g → ∃ x, x ∈ all ∧ x.original = s) ∧
    (∃ x y, x ∈ all ∧ y ∈ all ∧ x.original ≠ y.original ∧
      x.original ∈ gnames g ∧ y.original ∈ gnames g)

/-! ## Dates (JS Date model)

A fixed-offset, DST-free calendar: a date is its civil year, 0-based
month, day of month and milliseconds within the day; the epoch instant is
derived through the standard civil-from-days correspondence, so year,
month, day and the instant are consistent by construction.  Day values
outside the month range roll over exactly as the JS Date setters do. -/

def dayMs : Int := 86400000

/-- Days from the civil epoch (1970-01-01) of a year / 1-based month / day
triple, with out-of-range days rolling over linearly. -/
def daysFromCivil (y m d : Int) : Int :=
  let yAdj := if m ≤ 2 then y - 1 else y
  let era := yAdj.fdiv 400
  let yoe := yAdj - era * 400
  let mp := if m ≤ 2 then m + 9 else m - 3
  let doy := (153 * mp + 2).ediv 5 + d - 1
  let doe := yoe * 365 + yoe.ediv 4 - yoe.ediv 100 + doy
  era * 146097 + doe - 719468

structure JSDate where
  year : Int
  month : Nat
  day : Int
  msOfDay : Int
deriving DecidableEq

/-- Epoch day count of the date. -/
def epochDays (dt : JSDate) : Int := daysFromCivil dt.year ((dt.month : Int) + 1) dt.day

/-- getTime: epoch milliseconds of the date. -/
def msOf (dt : JSDate) : Int := dayMs * epochDays dt + dt.msOfDay

/-- A date at local midnight. -/
def mkDate (y : Int) (m : Nat) (d : Int) : JSDate := JSDate.mk y m d 0

/-- Epoch milliseconds of January 1 of the year of the given date
(new Date(getFullYear(), 0, 1)). -/
def jan1ms (dt : JSDate) : Int := dayMs * daysFromCivil dt.year 1 1

/-- getDay: day of week, 0 = Sunday. -/
def jsGetDay (dt : JSDate) : Int := (epochDays dt + 4).emod 7

/-! ## PeriodFilter (the effective getFilteredRows of main.js)

The class body defines getFilteredRows twice; the later definition is the
one in effect, and it is embedded here.  Dates come from the date column
(index 4) through the browser date parser, which is an external
collaborator and is passed in as a function. -/

inductive Period where
  | week
  | payweek
  | month
  | year
deriving DecidableEq

/-- getColumnValue: null when the column was not found, the cell is absent
or the cell is the empty string (JS truthiness). -/
def getCell (row : List String) (idx : Int) : Option String :=
  if idx < 0 then none
  else
    match row.get? idx.toNat with
    | none => none
    | some v => if v = "" then none else some v

structure FilterCtx where
  rowsData : List (List String)
  currentPeriod : Option Period
  selectedMonth : Nat
  selectedYear : Int
  payweekIdx : Int
deriving DecidableEq

/-- isCurrentPayweek of main.js: the whole-day difference from now is at
most 14 (the payweek column argument is unused by the source). -/
def isCurrentPayweek (d now : JSDate) : Bool :=
  decide ((msOf now - msOf d).fdiv dayMs ≤ 14)

/-- The per-row filter predicate of getFilteredRows, for a selected
period. -/
def rowInPeriod (parseD : String → Option JSDate) (ctx : FilterCtx)
    (p : Period) (now : JSDate) (row : List String) : Bool :=
  match row.get? 4 with
  | none => false
  | some s =>
    if s = "" then false
    else
      match parseD s with
      | none => false
      | some d =>
        match p with
        | Period.week =>
          let weekStartMs := dayMs * (epochDays now - jsGetDay now)
          let weekEndMs := weekStartMs + 6 * dayMs + 86399999
          decide (weekStartMs ≤ msOf d ∧ msOf d ≤ weekEndMs)
        | Period.payweek =>
          match getCell row ctx.payweekIdx with
          | some _ => isCurrentPayweek d now
          | none => decide (msOf now - 14 * dayMs ≤ msOf d)
        | Period.month =>
          decide (d.month = ctx.selectedMonth ∧ d.year = ctx.selectedYear)
        | Period.year => decide (d.year = ctx.selectedYear)

/-- getFilteredRows: skip the header row; with no period selected, return
every transaction; otherwise filter by the period predicate. -/
def getFilteredRows (parseD : String → Option JSDate) (ctx : FilterCtx)
    (now : JSDate) : List (List String) :=
  if ctx.rowsData.length ≤ 1 then []
  else
    match ctx.currentPeriod with
    | none => ctx.rowsData.drop 1
    | some p => (ctx.rowsData.drop 1).filter (rowInPeriod parseD ctx p now)

/-- Spec-side definition, following the specification words for the
payweek filter: a fixed 14-day bucket anchored at January 1 of the year of
now, bucket index floor(days-since-Jan-1 / 14), true when the date falls
on or after the start instant of the bucket. -/
def payweekSpecFilter (d now : JSDate) : Bool :=
  let daysSinceJan1 := (msOf now - jan1ms now).fdiv dayMs
  let bucketStart := jan1ms now + daysSinceJan1.fdiv 14 * 14 * dayMs
  decide (bucketStart ≤ msOf d)

/-! ## BudgetConverter (convertBudgetFromBase / convertBudgetToBase)

The JS amounts are numbers; the arithmetic of the two converters is
embedded over the exact rationals. -/

def convertBudgetFromBase (baseAmount : ℚ) (targetPeriod : Period) : ℚ :=
  match targetPeriod with
  | Period.payweek => baseAmount
  | Period.week => baseAmount / 2
  | Period.month => baseAmount * 26 / 12
  | Period.year => baseAmount * 26

def convertBudgetToBase (amount : ℚ) (sourcePeriod : Period) : ℚ :=
  match sourcePeriod with
  | Period.payweek => amount
  | Period.week => amount * 2
  | Period.month => amount * 12 / 26
  | Period.year => amount / 26

/-! ## EditCache (merchantEditingCache of main.js)

The cache state and the live row table; pendingChanges is an
insertion-ordered map (JS Map), changedRows an insertion-ordered set of
row indices (JS Set). -/

structure CacheState where
  enabled : Bool
  originalData : Option (List (List String))
  pendingChanges : List (String × String)
  changedRows : List Nat
deriving DecidableEq

structure AppState where
  rowsData : List (List String)
  cache : CacheState
  merchantIdx : Int
  merchantGroupIdx : Int
deriving DecidableEq

def disabledCache : CacheState := CacheState.mk false none [] []

/-- enableMerchantEditingCache: snapshot the row table (deep copy), clear
the pending state. -/
def enableMerchantEditingCache (st : AppState) : AppState :=
  { st with cache := CacheState.mk true (some st.rowsData) [] [] }

/-- disableMerchantEditingCache. -/
def disableMerchantEditingCacheSt (st : AppState) : AppState :=
  { st with cache := disabledCache }

/-- JS Map.set: update in place, or append a new entry. -/
def upsert : List (String × String) → String → String → List (String × String)
  | [], k, v => [(k, v)]
  | (a, b) :: t, k, v => if a = k then (k, v) :: t else (a, b) :: upsert t k v

/-- JS Set.add on the insertion-ordered row set. -/
def addRowSet (l : List Nat) (i : Nat) : List Nat :=
  if i ∈ l then l else l ++ [i]

/-- JS assignment row[i] = v, extending the row when i is out of range. -/
def setCellAt (row : List String) (i : Nat) (v : String) : List String :=
  if i < row.length then row.set i v
  else row ++ List.replicate (i - row.length) "" ++ [v]

/-- One iteration of the applyCachedMerchantChange row loop at index i:
read the merchant of row i (merchant column, else column 2), and when it
equals the edited merchant, write the new group into the merchant-group
column (when that column exists) and record the row as changed. -/
def applyRowStep (mIdx gIdx : Int) (mName gName : String)
    (acc : List (List String) × List Nat) (i : Nat) :
    List (List String) × List Nat :=
  let row := acc.1.getD i []
  let rowMerchant : Option String :=
    match getCell row mIdx with
    | some v => some v
    | none => row.get? 2
  if rowMerchant = some mName then
    let rows2 :=
      if 0 ≤ gIdx then acc.1.set i (setCellAt row gIdx.toNat gName) else acc.1
    (rows2, addRowSet acc.2 i)
  else acc

/-- applyCachedMerchantChange: a no-op while the cache is disabled;
otherwise record the pending change and update every matching row of the
live table, collecting the touched row indices. -/
def applyCachedMerchantChange (st : AppState) (mName gName : String) : AppState :=
  if st.cache.enabled = false then st
  else
    let idxs := (List.range st.rowsData.length).drop 1
    let res := idxs.foldl (applyRowStep st.merchantIdx st.merchantGroupIdx mName gName)
      (st.rowsData, st.cache.changedRows)
    { st with
      rowsData := res.1
      cache := { st.cache with
        pendingChanges := upsert st.cache.pendingChanges mName gName
        changedRows := res.2 } }

/-- revertCachedChanges: only meaningful while enabled with a snapshot;
restores the table from the snapshot and disables the cache. -/
def revertCachedChanges (st : AppState) : AppState :=
  if st.cache.enabled = false then st
  else
    match st.cache.originalData with
    | none => st
    | some orig => { st with rowsData := orig, cache := disabledCache }

/-! ## Flush (commitCachedChanges) and the spreadsheet store calls -/

/-- A write request issued to the spreadsheet store: updateCell is the
single-cell update endpoint, batchUpdate the batch endpoint
(batchUpdateCells of sheets-api.js). -/
inductive StoreCall where
  | updateCell (range : String) (value : String)
  | batchUpdate (updates : List (String × String))
deriving DecidableEq

/-- Decimal digits of a natural number (the template interpolation of the
row number); the first argument is fuel, always sufficient when it is at
least the number, making the recursion structural. -/
def natDigitsGo : Nat → Nat → List Char
  | 0, _ => []
  | fuel + 1, n =>
    if n < 10 then [Char.ofNat (48 + n)]
    else natDigitsGo fuel (n / 10) ++ [Char.ofNat (48 + n % 10)]

def natRepr (n : Nat) : String := String.mk (natDigitsGo (n + 1) n)

/-- numberToLetter of sheets-api.js: 1-based column number to letters; the
first argument of the worker is fuel (the value strictly decreases each
iteration, so the value itself is sufficient fuel). -/
def numberToLetterGo : Nat → Nat → String
  | 0, _ => ""
  | fuel + 1, num =>
    match num with
    | 0 => ""
    | n + 1 => numberToLetterGo fuel (n / 26) ++ String.mk [Char.ofNat (65 + n % 26)]

def numberToLetter (num : Nat) : String := numberToLetterGo num num

/-- The current merchant-group cell content of row i (empty string for an
absent cell). -/
def cellAt (st : AppState) (i : Nat) : String :=
  if st.merchantGroupIdx < 0 then ""
  else (st.rowsData.getD i []).getD st.merchantGroupIdx.toNat ""

structure CommitResult where
  state : AppState
  ok : Bool
  calls : List StoreCall
  reported : Option Nat
deriving DecidableEq

/-- commitCachedChanges: nothing to do while disabled or with no changed
rows; otherwise issue one single-cell update per changed row (awaited
together), and on overall success report the changed-row count and disable
the cache; on failure leave the state untouched and return false.  The
success of the awaited writes is an explicit parameter. -/
def commitCachedChanges (st : AppState) (success : Bool) : CommitResult :=
  if st.cache.enabled = false ∨ st.cache.changedRows = [] then
    CommitResult.mk st true [] none
  else
    let letter := numberToLetter (st.merchantGroupIdx + 1).toNat
    let calls := st.cache.changedRows.map (fun i =>
      StoreCall.updateCell (letter ++ natRepr (i + 1)) (cellAt st i))
    if success then
      CommitResult.mk (disableMerchantEditingCacheSt st) true calls
        (some st.cache.changedRows.length)
    else CommitResult.mk st false calls none

/-- Sequential application of a list of merchant edits through the cache. -/
def applyAll (st : AppState) (edits : List (String × String)) : AppState :=
  edits.foldl (fun a e => applyCachedMerchantChange a e.1 e.2) st

/-! ## Concrete instances used by counterexamples and witnesses -/

def exHeaderRow : List String :=
  ["Account", "Amount", "Merchant", "Description", "Date", "Transaction ID",
   "Notes", "Merchant Group"]

def exDate1 : String := "2025-01-20"
def exDate2 : String := "2025-01-21"

def exRow1 : List String :=
  ["Chequing", "-45", "Fresh Mart", "food", exDate1, "t1", "", "Groceries"]

def exRow2 : List String :=
  ["Chequing", "-12", "Fresh Mart", "food", exDate2, "t2", "", "Groceries"]

/-- An enabled editing session with the two data rows already touched. -/
def exCommitState : AppState :=
  AppState.mk [exHeaderRow, exRow1, exRow2]
    (CacheState.mk true (some [exHeaderRow, exRow1, exRow2])
      [("Fresh Mart", "Groceries")] [1, 2]) 2 7

def exRangeH2 : String := "H2"
def exRangeH3 : String := "H3"
def exGroupVal : String := "Groceries"

/-- A state with the editing cache disabled. -/
def exDisabledState : AppState :=
  AppState.mk [exHeaderRow, exRow1, exRow2] disabledCache 2 7

def exMerchName : String := "Fresh Mart"
def exNewGroup : String := "Food"

def c3date : JSDate := mkDate 2025 0 20
def c3now : JSDate := mkDate 2025 0 30
def c3parse : String → Option JSDate :=
  fun s => if s = exDate1 then some c3date else none

/-- A transaction row whose payweek column (index 7 here) has a value. -/
def c3row : List String :=
  ["Chequing", "-45", "Fresh Mart", "food", exDate1, "t1", "", "PW02"]

def c3ctx : FilterCtx :=
  FilterCtx.mk [exHeaderRow, c3row] (some Period.payweek) 0 2025 7

def c4dateStr : String := "2025-03-01"
def c4date : JSDate := mkDate 2025 2 1
def c4now : JSDate := mkDate 2025 2 15
def c4row : List String :=
  ["Chequing", "-45", "Fresh Mart", "food", c4dateStr, "t1", "", "Groceries"]
def c4parse : String → Option JSDate :=
  fun s => if s = c4dateStr then some c4date else none
def c4ctx : FilterCtx :=
  FilterCtx.mk [exHeaderRow, c4row] (some Period.month) 2 2025 7

def c7raw : String := "WAL-MART #3454"

def c8name : String := "Zq"
def c8fail : FetchOutcome := Except.error ()

/-- A whitespace-containing name unmatched by rules 1-9. -/
def c8ws : String := "ab cd"

def thA : String := "Tim Hortons #12"
def thB : String := "Tim Hortons #45"
def costcoRaw : String := "Costco"
def thMerchants : List String := [thA, thB, costcoRaw]
def thCounts : String → Nat :=
  fun s => if s = thA then 3 else if s = thB then 1 else 5
def timTok : String := "Tim"

/-! # Theorems -/

/-! ## Helper lemmas -/

theorem apply_preserves_cache_meta (st : AppState) (m g : String) :
    (applyCachedMerchantChange st m g).cache.enabled = st.cache.enabled ∧
    (applyCachedMerchantChange st m g).cache.originalData = st.cache.originalData := by
  unfold applyCachedMerchantChange
  split
  · exact ⟨rfl, rfl⟩
  · exact ⟨rfl, rfl⟩

theorem applyAll_preserves_cache_meta (edits : List (String × String)) :
    ∀ st : AppState, (applyAll st edits).cache.enabled = st.cache.enabled ∧
      (applyAll st edits).cache.originalData = st.cache.originalData := by
  induction edits with
  | nil => intro st; exact ⟨rfl, rfl⟩
  | cons e t ih =>
    intro st
    have h1 := apply_preserves_cache_meta st e.1 e.2
    have h2 := ih (applyCachedMerchantChange st e.1 e.2)
    exact ⟨h2.1.trans h1.1, h2.2.trans h1.2⟩

/-! ## C10 -/

/-- C10: calling applyCachedMerchantChange while the edit cache is disabled
is a complete no-op: the state (live row table, pending-changes map and
changed-row set included) is returned unchanged. -/
theorem c10_apply_disabled_noop (st : AppState) (mName gName : String)
    (h : st.cache.enabled = false) :
    applyCachedMerchantChange st mName gName = st := by
  unfold applyCachedMerchantChange
  rw [if_pos h]

theorem c10_witness :
    exDisabledState.cache.enabled = false ∧
    applyCachedMerchantChange exDisabledState exMerchName exNewGroup = exDisabledState :=
  ⟨rfl, c10_apply_disabled_noop exDisabledState exMerchName exNewGroup rfl⟩

/-! ## C2 -/

/-- C2: flush is all-or-nothing for the caller: on store failure the whole
state (live table, snapshot, pending and changed sets) is unchanged and
false is returned; on success the live table is kept as-is and the cache is
disabled (snapshot and changed rows cleared). -/
theorem c2_flush_all_or_nothing (st : AppState)
    (h1 : st.cache.enabled = true) (h2 : st.cache.changedRows ≠ []) :
    ((commitCachedChanges st false).state = st ∧
     (commitCachedChanges st false).ok = false) ∧
    ((commitCachedChanges st true).state.rowsData = st.rowsData ∧
     (commitCachedChanges st true).state.cache = disabledCache ∧
     (commitCachedChanges st true).ok = true) := by
  have hcond : ¬ (st.cache.enabled = false ∨ st.cache.changedRows = []) := by
    simp [h1, h2]
  refine ⟨?_, ?_, ?_, ?_⟩ <;>
    simp [commitCachedChanges, hcond, disableMerchantEditingCacheSt]

theorem c2_witness :
    exCommitState.cache.enabled = true ∧ exCommitState.cache.changedRows ≠ [] ∧
    (commitCachedChanges exCommitState false).state = exCommitState ∧
    (commitCachedChanges exCommitState true).state.cache = disabledCache := by
  have h := c2_flush_all_or_nothing exCommitState rfl (by decide)
  exact ⟨rfl, by decide, h.1.1, h.2.2.1⟩

/-! ## C1 -/

/-- C1 counterexample: at a concrete enabled state with two changed rows,
the flush issues two single-cell updateCell requests; it does not issue one
batch request (there is no single batchUpdate call in the request list), so
the batch-request part of the claim fails on the code, which loops over
updateCell and never calls batchUpdateCells. -/
theorem c1_counterexample :
    (commitCachedChanges exCommitState true).calls =
      [StoreCall.updateCell exRangeH2 exGroupVal,
       StoreCall.updateCell exRangeH3 exGroupVal] ∧
    (commitCachedChanges exCommitState true).calls.length ≠ 1 := by
  exact ⟨by decide, by decide⟩

/-- C1 amended: for every enabled state with a non-empty changed-row set,
flush writes the current merchant-group value of every changed row to the
store as one single-cell update request per changed row (issued together
and awaited as a group), and reports a count of cells written equal to the
number of changed rows. -/
theorem c1_amended_per_cell_flush (st : AppState)
    (h1 : st.cache.enabled = true) (h2 : st.cache.changedRows ≠ []) :
    (commitCachedChanges st true).calls =
      st.cache.changedRows.map (fun i =>
        StoreCall.updateCell
          (numberToLetter (st.merchantGroupIdx + 1).toNat ++ natRepr (i + 1))
          (cellAt st i)) ∧
    (commitCachedChanges st true).reported = some st.cache.changedRows.length ∧
    (commitCachedChanges st true).calls.length = st.cache.changedRows.length := by
  have hcond : ¬ (st.cache.enabled = false ∨ st.cache.changedRows = []) := by
    simp [h1, h2]
  refine ⟨?_, ?_, ?_⟩ <;> simp [commitCachedChanges, hcond]

theorem c1_amended_witness :
    exCommitState.cache.enabled = true ∧
    (commitCachedChanges exCommitState true).reported = some 2 := by
  have h := c1_amended_per_cell_flush exCommitState rfl (by decide)
  exact ⟨rfl, by simpa [exCommitState] using h.2.1⟩

/-! ## C5 -/

/-- C5: after enable and any sequence of applied edits, revert restores the
live row table to exactly the snapshot taken at enable time and disables
the cache; and when the cache is disabled or has no snapshot, revert leaves
the state (live table included) unchanged. -/
theorem c5_revert_restores_snapshot :
    (∀ (st : AppState) (edits : List (String × String)),
      (revertCachedChanges (applyAll (enableMerchantEditingCache st) edits)).rowsData
        = st.rowsData ∧
      (revertCachedChanges (applyAll (enableMerchantEditingCache st) edits)).cache
        = disabledCache) ∧
    (∀ st : AppState, st.cache.enabled = false ∨ st.cache.originalData = none →
      revertCachedChanges st = st) := by
  constructor
  · intro st edits
    have hmeta := applyAll_preserves_cache_meta edits (enableMerchantEditingCache st)
    have hen : (applyAll (enableMerchantEditingCache st) edits).cache.enabled = true :=
      hmeta.1
    have hod : (applyAll (enableMerchantEditingCache st) edits).cache.originalData
        = some st.rowsData := hmeta.2
    unfold revertCachedChanges
    rw [if_neg (by simp [hen]), hod]
    exact ⟨rfl, rfl⟩
  · intro st h
    unfold revertCachedChanges
    rcases h with h | h
    · rw [if_pos h]
    · split
      · rfl
      · rw [h]

theorem c5_witness :
    (exDisabledState.cache.enabled = false ∨
     exDisabledState.cache.originalData = none) ∧
    revertCachedChanges exDisabledState = exDisabledState ∧
    (revertCachedChanges (applyAll (enableMerchantEditingCache exDisabledState)
      [(exMerchName, exNewGroup)])).rowsData = exDisabledState.rowsData :=
  ⟨Or.inl rfl,
   c5_revert_restores_snapshot.2 exDisabledState (Or.inl rfl),
   (c5_revert_restores_snapshot.1 exDisabledState [(exMerchName, exNewGroup)]).1⟩

/-! ## C9 -/

/-- C9: for every positive amount and every period (payweek being the
identity), converting a base amount to the period and back is exactly the
identity over the embedded exact arithmetic, hence within the 1e-9
tolerance the claim allows. -/
theorem c9_budget_round_trip (a : ℚ) (_h : 0 < a) (p : Period) :
    |convertBudgetToBase (convertBudgetFromBase a p) p - a| ≤ 1 / 1000000000 := by
  have hid : convertBudgetToBase (convertBudgetFromBase a p) p = a := by
    cases p <;> simp [convertBudgetFromBase, convertBudgetToBase]
  rw [hid, sub_self, abs_zero]
  norm_num

theorem c9_witness :
    (0 : ℚ) < 7 ∧
    |convertBudgetToBase (convertBudgetFromBase 7 Period.month) Period.month - 7|
      ≤ 1 / 1000000000 :=
  ⟨by norm_num, c9_budget_round_trip 7 (by norm_num) Period.month⟩

/-! ## C3 -/

/-- C3 counterexample: with now = 2025-01-30 the Jan-1-anchored bucket of
the specification starts on 2025-01-29, so a transaction dated 2025-01-20
is outside the bucket; the code (the effective getFilteredRows, whose
payweek branch delegates to isCurrentPayweek when the row has a payweek
column value) nevertheless includes it, because it only checks that the
whole-day difference from now is at most 14.  The claimed equivalence
therefore fails at this input. -/
theorem c3_counterexample :
    rowInPeriod c3parse c3ctx Period.payweek c3now c3row = true ∧
    payweekSpecFilter c3date c3now = false := by
  exact ⟨by decide, by decide⟩

/-- Whole-day floor difference at most 14 is exactly a strict sliding
window of 15 days. -/
theorem fdiv_day_le_14_iff (n : Int) : n.fdiv dayMs ≤ 14 ↔ n < 15 * dayMs := by
  rw [Int.fdiv_eq_ediv _ (by norm_num [dayMs] : (0:Int) ≤ dayMs)]
  have : dayMs = 86400000 := rfl
  rw [this]
  omega

/-- C3 amended: for every parseable transaction date, the payweek filter
uses a sliding window relative to now, not a Jan-1-anchored bucket: when
the row has a (truthy) payweek column value it returns true exactly when
floor((now - date) / 1 day) is at most 14, i.e. when the date lies less
than 15 days before now or anywhere in the future; when the row has no
payweek value it returns true exactly when the date is at or after now
minus 14 days. -/
theorem c3_amended_sliding_window (parseD : String → Option JSDate)
    (ctx : FilterCtx) (now : JSDate) (row : List String) (s : String)
    (d : JSDate) (h4 : row.get? 4 = some s) (hs : s ≠ "")
    (hp : parseD s = some d) :
    ((getCell row ctx.payweekIdx).isSome →
      (rowInPeriod parseD ctx Period.payweek now row = true ↔
        msOf now - msOf d < 15 * dayMs)) ∧
    (getCell row ctx.payweekIdx = none →
      (rowInPeriod parseD ctx Period.payweek now row = true ↔
        msOf now - 14 * dayMs ≤ msOf d)) := by
  constructor
  · intro hpw
    obtain ⟨v, hv⟩ := Option.isSome_iff_exists.mp hpw
    simp only [rowInPeriod, h4, hp, if_neg hs, hv, isCurrentPayweek,
      decide_eq_true_eq]
    exact fdiv_day_le_14_iff (msOf now - msOf d)
  · intro hpw
    simp only [rowInPeriod, h4, hp, if_neg hs, hpw, decide_eq_true_eq]

theorem c3_amended_witness :
    c3row.get? 4 = some exDate1 ∧
    (getCell c3row c3ctx.payweekIdx).isSome = true ∧
    (rowInPeriod c3parse c3ctx Period.payweek c3now c3row = true ↔
      msOf c3now - msOf c3date < 15 * dayMs) := by
  refine ⟨rfl, by decide, ?_⟩
  exact (c3_amended_sliding_window c3parse c3ctx c3now c3row exDate1 c3date
    rfl (by decide) rfl).1 (by decide)

/-! ## C4 -/

/-- C4: for every parseable transaction date, the month filter returns true
exactly when the month and year fields of the date equal the selected
month and year, which the application constructor initializes to those of
now; in particular any date in the same calendar month and year as now
(its 1st and its last day included) passes, and any date of a different
month or year (the 1st of the next month included) does not. -/
theorem c4_month_filter (parseD : String → Option JSDate) (ctx : FilterCtx)
    (now : JSDate) (row : List String) (s : String) (d : JSDate)
    (h4 : row.get? 4 = some s) (hs : s ≠ "") (hp : parseD s = some d)
    (hm : ctx.selectedMonth = now.month) (hy : ctx.selectedYear = now.year) :
    rowInPeriod parseD ctx Period.month now row =
      (decide (d.month = now.month) && decide (d.year = now.year)) := by
  simp only [rowInPeriod, h4, hp, if_neg hs, hm, hy]
  exact Bool.decide_and (d.month = now.month) (d.year = now.year)

theorem c4_witness :
    c4ctx.selectedMonth = c4now.month ∧ c4ctx.selectedYear = c4now.year ∧
    rowInPeriod c4parse c4ctx Period.month c4now c4row = true := by
  refine ⟨rfl, rfl, ?_⟩
  have h := c4_month_filter c4parse c4ctx c4now c4row c4dateStr c4date rfl
    (by decide) rfl rfl rfl
  simpa using h

/-! ## C8 -/

/-- When a key is present, the cache has no entry for the name, and the
fetch fails in any of its forms, cleanWithGPT4 absorbs the failure and
returns a fresh regex cleaning of the raw name at the current rule-10
lastIndex. -/
theorem cleanWithGPT4_fail (name : String) (cache : List (String × String))
    (fetch : FetchOutcome) (li : Nat) (hf : FetchFails fetch)
    (hc : lookupS cache name = none) :
    cleanWithGPT4 name true cache fetch li =
      (Except.ok (cleanWithRegex name li).1, (cleanWithRegex name li).2) := by
  unfold cleanWithGPT4
  rw [hc]
  rcases hf with h | ⟨c, h⟩ | h <;> subst h <;> rfl

/-- C8 counterexample: starting from the fresh cleaner state (rule-10
lastIndex zero), the entry regex pass cleans the whitespace-containing
name to the empty string (rule 10 assigns one space, trim empties it) and
advances the lastIndex past the matched run; when the semantic call then
fails, the fallback re-runs the regex at the advanced lastIndex, rule 10
no longer matches, and the raw name is returned.  The call thus returns
neither the regex-cleaned result (the empty string) nor the raw name under
the condition the claim allows it (the regex pass did change the name). -/
theorem c8_counterexample :
    (cleanMerchantName c8ws true [] c8fail 0).1 = Except.ok c8ws ∧
    (cleanWithRegex c8ws 0).1 = "" ∧
    c8ws ≠ "" ∧
    c8ws ≠ (cleanWithRegex c8ws 0).1 := by
  exact ⟨rfl, by decide, by decide, by decide⟩

/-- C8 amended: the optional semantic cleaning never propagates a failure:
cleanMerchantName always returns a value, never an error; and whenever the
semantic call is reached (the entry regex change was not significant, a
key is present, no cached entry) and fails in any way (network error,
non-ok response, empty content), the returned value is the fresh regex
cleaning of the raw name performed in the failure handler, at the rule-10
lastIndex left behind by the entry regex pass.  Through that persistent
lastIndex the fallback value can differ from the entry regex result (the
counterexample input yields the raw name instead of the empty string); in
every case the merchant keeps a regex cleaning of its raw name. -/
theorem c8_amended_regex_fallback :
    (∀ (name : String) (key : Bool) (cache : List (String × String))
      (fetch : FetchOutcome) (li : Nat),
      ∃ v, (cleanMerchantName name key cache fetch li).1 = Except.ok v) ∧
    (∀ (name : String) (cache : List (String × String))
      (fetch : FetchOutcome) (li : Nat),
      FetchFails fetch → lookupS cache name = none →
      ¬ ((cleanWithRegex name li).1 ≠ name ∧
         ((cleanWithRegex name li).1).length > 3) →
      (cleanMerchantName name true cache fetch li).1 =
        Except.ok (cleanWithRegex name ((cleanWithRegex name li).2)).1) := by
  constructor
  · intro name key cache fetch li
    unfold cleanMerchantName
    split
    · exact ⟨name, rfl⟩
    · split
      · exact ⟨(cleanWithRegex name li).1, rfl⟩
      · split
        · split
          · exact ⟨_, rfl⟩
          · exact ⟨_, rfl⟩
        · exact ⟨_, rfl⟩
  · intro name cache fetch li hf hc hns
    by_cases hname : name = ""
    · subst hname
      rfl
    · have hg := cleanWithGPT4_fail name cache fetch ((cleanWithRegex name li).2)
        hf hc
      simp [cleanMerchantName, hg, hname, hns]

theorem c8_amended_witness :
    FetchFails c8fail ∧ lookupS [] c8name = none ∧
    (cleanMerchantName c8name true [] c8fail 0).1 =
      Except.ok (cleanWithRegex c8name ((cleanWithRegex c8name 0).2)).1 :=
  ⟨Or.inl rfl, rfl,
   c8_amended_regex_fallback.2 c8name [] c8fail 0 (Or.inl rfl) rfl (by decide)⟩

/-! ## C7 -/

/-- The fixed clean name produced by a brand rule is one of the five brand
names of the rule table. -/
theorem brandMatch_mem (l : List Char) (b : String) (hb : brandMatch l = some b) :
    b = walMartName ∨ b = costcoName ∨ b = timHortonsName ∨ b = mcdName ∨
      b = shoppersName := by
  unfold brandMatch at hb
  split_ifs at hb <;> cases hb <;> tauto

/-- When a brand rule fires, the call returns the trimmed fixed name and
leaves the rule-10 lastIndex untouched (rule 10 is never tested). -/
theorem cleanWithRegex_brand (s : String) (li : Nat) (b : String) (hs : s ≠ "")
    (hb : brandMatch ((trimL s.data).map Char.toLower) = some b) :
    cleanWithRegex s li = (String.mk (trimL b.data), li) := by
  unfold cleanWithRegex
  rw [if_neg hs, hb]

/-- C7: when the (trimmed, case-folded) raw string matches a known-brand
rule, cleanWithRegex applies only that first matching rule: it returns the
fixed brand name, leaves the stateful rule-10 lastIndex unchanged, and is
idempotent on such strings whatever the lastIndex of the second call. -/
theorem c7_brand_rule_first_match (s b : String) (li li2 : Nat) (hs : s ≠ "")
    (hb : brandMatch ((trimL s.data).map Char.toLower) = some b) :
    (cleanWithRegex s li).1 = b ∧ (cleanWithRegex s li).2 = li ∧
    (cleanWithRegex (cleanWithRegex s li).1 li2).1 = (cleanWithRegex s li).1 := by
  have h1 : cleanWithRegex s li = (String.mk (trimL b.data), li) :=
    cleanWithRegex_brand s li b hs hb
  have hfix : String.mk (trimL b.data) = b ∧ b ≠ "" ∧
      brandMatch ((trimL b.data).map Char.toLower) = some b := by
    rcases brandMatch_mem _ _ hb with h | h | h | h | h <;> subst h <;>
      exact ⟨by decide, by decide, by decide⟩
  have h2 : (cleanWithRegex s li).1 = b := by rw [h1]; exact hfix.1
  refine ⟨h2, by rw [h1], ?_⟩
  rw [h2, cleanWithRegex_brand b li2 b hfix.2.1 hfix.2.2]
  exact hfix.1

theorem c7_witness :
    brandMatch ((trimL c7raw.data).map Char.toLower) = some walMartName ∧
    (cleanWithRegex c7raw 0).1 = walMartName ∧
    (cleanWithRegex c7raw 0).2 = 0 ∧
    (cleanWithRegex (cleanWithRegex c7raw 0).1 0).1 = (cleanWithRegex c7raw 0).1 := by
  refine ⟨by decide, ?_, ?_, ?_⟩
  · exact (c7_brand_rule_first_match c7raw walMartName 0 0 (by decide) (by decide)).1
  · exact (c7_brand_rule_first_match c7raw walMartName 0 0 (by decide) (by decide)).2.1
  · exact (c7_brand_rule_first_match c7raw walMartName 0 0 (by decide) (by decide)).2.2

/-! ## C6 -/

theorem mem_insertDesc (x a : NMerchant) (l : List NMerchant) :
    a ∈ insertDesc x l ↔ a = x ∨ a ∈ l := by
  induction l with
  | nil => simp [insertDesc]
  | cons y ys ih =>
    unfold insertDesc
    split
    · simp
    · simp [ih]
      tauto

theorem mem_sortDesc (a : NMerchant) (l : List NMerchant) :
    a ∈ sortDesc l ↔ a ∈ l := by
  induction l with
  | nil => simp [sortDesc]
  | cons x xs ih => simp [sortDesc, mem_insertDesc, ih]

theorem mem_gnames_mkGroup (m : NMerchant) (sim : List NMerchant) (s : String) :
    s ∈ gnames (mkGroup m sim) ↔
      s = m.original ∨ ∃ z, z ∈ sim ∧ z.original = s := by
  simp only [gnames, mkGroup, List.map_map, List.mem_map, Function.comp,
    mem_sortDesc, List.mem_cons]
  constructor
  · rintro ⟨x, rfl | hx, rfl⟩
    · exact Or.inl rfl
    · exact Or.inr ⟨x, hx, rfl⟩
  · rintro (rfl | ⟨z, hz, rfl⟩)
    · exact ⟨m, Or.inl rfl, rfl⟩
    · exact ⟨z, Or.inr hz, rfl⟩

theorem nodup_orig_inj (all : List NMerchant)
    (hN : (all.map NMerchant.original).Nodup) (x y : NMerchant)
    (hx : x ∈ all) (hy : y ∈ all) (h : x.original = y.original) : x = y :=
  List.inj_on_of_nodup_map hN hx hy h

/-- Invariant-preservation along the grouping loop: every emitted group is
a full normalized-key class with at least two distinct names, and every
input merchant with a normalized-key partner ends up in an emitted group. -/
theorem groupLoop_spec (all : List NMerchant)
    (hN : (all.map NMerchant.original).Nodup) :
    ∀ (rest : List NMerchant) (groups : List MGroup) (processed : List String),
    (∀ x, x ∈ rest → x ∈ all) →
    (∀ s, s ∈ processed ↔ ∃ g, g ∈ groups ∧ s ∈ gnames g) →
    (∀ g, g ∈ groups → GroupOK all g) →
    (∀ x, x ∈ all → x ∉ rest → HasPartner all x → x.original ∈ processed) →
    (∀ g, g ∈ groupLoop all rest groups processed → GroupOK all g) ∧
    (∀ x, x ∈ all → HasPartner all x →
      ∃ g, g ∈ groupLoop all rest groups processed ∧ x.original ∈ gnames g) := by
  intro rest
  induction rest with
  | nil =>
    intro groups processed _ I1 I2 I3
    refine ⟨fun g hg => I2 g hg, fun x hx hp => ?_⟩
    have hxp : x.original ∈ processed := I3 x hx (List.not_mem_nil x) hp
    obtain ⟨g, hg, hmem⟩ := (I1 x.original).mp hxp
    exact ⟨g, hg, hmem⟩
  | cons m rest ih =>
    intro groups processed hr I1 I2 I3
    have closure : ∀ a b : NMerchant, a ∈ all → b ∈ all →
        b.normalized = a.normalized → a.original ∈ processed →
        b.original ∈ processed := by
      intro a b ha hb hk hpa
      obtain ⟨g, hg, hmem⟩ := (I1 a.original).mp hpa
      obtain ⟨k, hka, -, -⟩ := I2 g hg
      exact (I1 b.original).mpr ⟨g, hg, (hka b hb).mpr (hk.trans ((hka a ha).mp hmem))⟩
    have hmAll : m ∈ all := hr m (List.mem_cons_self m rest)
    have hr' : ∀ x, x ∈ rest → x ∈ all :=
      fun x hx => hr x (List.mem_cons_of_mem m hx)
    by_cases hm : m.original ∈ processed
    · have heq : groupLoop all (m :: rest) groups processed
          = groupLoop all rest groups processed := by
        simp only [groupLoop]
        rw [if_pos hm]
      rw [heq]
      refine ih groups processed hr' I1 I2 ?_
      intro x hx hnr hp
      by_cases hxm : x = m
      · subst hxm; exact hm
      · exact I3 x hx (by simp [hxm, hnr]) hp
    · have hsim_mem : ∀ o, o ∈ all.filter (fun o =>
          decide (o.original ∉ processed ∧ o.normalized = m.normalized ∧
                  o.original ≠ m.original)) ↔
          o ∈ all ∧ o.original ∉ processed ∧ o.normalized = m.normalized ∧
          o.original ≠ m.original := by
        intro o
        simp [List.mem_filter]
      cases hsimc : all.filter (fun o =>
          decide (o.original ∉ processed ∧ o.normalized = m.normalized ∧
                  o.original ≠ m.original)) with
      | nil =>
        have heq : groupLoop all (m :: rest) groups processed
            = groupLoop all rest groups processed := by
          simp only [groupLoop]
          rw [if_neg hm, hsimc]
        have hnp : ¬ HasPartner all m := by
          rintro ⟨y, hy, hk, hne⟩
          have hyp : y.original ∉ processed :=
            fun hyp => hm (closure y m hy hmAll hk.symm hyp)
          have hmemf : y ∈ all.filter (fun o =>
              decide (o.original ∉ processed ∧ o.normalized = m.normalized ∧
                      o.original ≠ m.original)) :=
            (hsim_mem y).mpr ⟨hy, hyp, hk, hne⟩
          rw [hsimc] at hmemf
          exact List.not_mem_nil y hmemf
        rw [heq]
        refine ih groups processed hr' I1 I2 ?_
        intro x hx hnr hp
        by_cases hxm : x = m
        · subst hxm; exact absurd hp hnp
        · exact I3 x hx (by simp [hxm, hnr]) hp
      | cons z zs =>
        have heq : groupLoop all (m :: rest) groups processed
            = groupLoop all rest (groups ++ [mkGroup m (z :: zs)])
              (processed ++ (m :: z :: zs).map (fun x => x.original)) := by
          simp only [groupLoop]
          rw [if_neg hm, hsimc]
        have hsub : ∀ o, o ∈ z :: zs → o ∈ all ∧ o.original ∉ processed ∧
            o.normalized = m.normalized ∧ o.original ≠ m.original :=
          fun o ho => (hsim_mem o).mp (hsimc ▸ ho)
        have hkey : ∀ x, x ∈ all →
            (x.original ∈ gnames (mkGroup m (z :: zs)) ↔
             x.normalized = m.normalized) := by
          intro x hx
          rw [mem_gnames_mkGroup]
          constructor
          · rintro (he | ⟨w, hw, hweq⟩)
            · rw [nodup_orig_inj all hN x m hx hmAll he]
            · obtain ⟨hwall, -, hwk, -⟩ := hsub w hw
              rw [← nodup_orig_inj all hN w x hwall hx hweq]
              exact hwk
          · intro hk
            by_cases hxm : x = m
            · subst hxm; exact Or.inl rfl
            · have hne : x.original ≠ m.original :=
                fun he => hxm (nodup_orig_inj all hN x m hx hmAll he)
              have hxp : x.original ∉ processed :=
                fun hxp => hm (closure x m hx hmAll hk.symm hxp)
              have hmemf : x ∈ all.filter (fun o =>
                  decide (o.original ∉ processed ∧ o.normalized = m.normalized ∧
                          o.original ≠ m.original)) :=
                (hsim_mem x).mpr ⟨hx, hxp, hk, hne⟩
              rw [hsimc] at hmemf
              exact Or.inr ⟨x, hmemf, rfl⟩
        have hGok : GroupOK all (mkGroup m (z :: zs)) := by
          refine ⟨m.normalized, hkey, ?_, ?_⟩
          · intro s hsmem
            rcases (mem_gnames_mkGroup m (z :: zs) s).mp hsmem with rfl | ⟨w, hw, hweq⟩
            · exact ⟨m, hmAll, rfl⟩
            · exact ⟨w, (hsub w hw).1, hweq⟩
          · refine ⟨m, z, hmAll, (hsub z (List.mem_cons_self z zs)).1,
              fun he => (hsub z (List.mem_cons_self z zs)).2.2.2 he.symm, ?_, ?_⟩
            · exact (mem_gnames_mkGroup m (z :: zs) m.original).mpr (Or.inl rfl)
            · exact (mem_gnames_mkGroup m (z :: zs) z.original).mpr
                (Or.inr ⟨z, List.mem_cons_self z zs, rfl⟩)
        have I1' : ∀ s, s ∈ processed ++ (m :: z :: zs).map (fun x => x.original) ↔
            ∃ g, g ∈ groups ++ [mkGroup m (z :: zs)] ∧ s ∈ gnames g := by
          intro s
          rw [List.mem_append]
          constructor
          · rintro (hs | hs)
            · obtain ⟨g, hg, hmem⟩ := (I1 s).mp hs
              exact ⟨g, List.mem_append_left _ hg, hmem⟩
            · refine ⟨mkGroup m (z :: zs),
                List.mem_append_right _ (List.mem_singleton.mpr rfl), ?_⟩
              rw [mem_gnames_mkGroup]
              obtain ⟨x, hxm, rfl⟩ := List.mem_map.mp hs
              rcases List.mem_cons.mp hxm with rfl | hxm
              · exact Or.inl rfl
              · exact Or.inr ⟨x, hxm, rfl⟩
          · rintro ⟨g, hg, hmem⟩
            rcases List.mem_append.mp hg with hg | hg
            · exact Or.inl ((I1 s).mpr ⟨g, hg, hmem⟩)
            · rw [List.mem_singleton.mp hg] at hmem
              rcases (mem_gnames_mkGroup m (z :: zs) s).mp hmem with rfl | ⟨w, hw, hweq⟩
              · exact Or.inr (List.mem_map.mpr ⟨m, List.mem_cons_self m _, rfl⟩)
              · exact Or.inr (List.mem_map.mpr ⟨w, List.mem_cons_of_mem m hw, hweq⟩)
        have I2' : ∀ g, g ∈ groups ++ [mkGroup m (z :: zs)] → GroupOK all g := by
          intro g hg
          rcases List.mem_append.mp hg with hg | hg
          · exact I2 g hg
          · rw [List.mem_singleton.mp hg]; exact hGok
        have I3' : ∀ x, x ∈ all → x ∉ rest → HasPartner all x →
            x.original ∈ processed ++ (m :: z :: zs).map (fun x => x.original) := by
          intro x hx hnr hp
          by_cases hxm : x = m
          · subst hxm
            exact List.mem_append_right _
              (List.mem_map.mpr ⟨x, List.mem_cons_self x _, rfl⟩)
          · exact List.mem_append_left _ (I3 x hx (by simp [hxm, hnr]) hp)
        rw [heq]
        exact ih (groups ++ [mkGroup m (z :: zs)])
          (processed ++ (m :: z :: zs).map (fun x => x.original)) hr' I1' I2' I3'

/-- C6: over any set of distinct raw names, merchants sharing an identical
normalized key end up together in one proposed group, and a merchant whose
key collides with no other name appears in no group; in particular the two
Tim Hortons variants are grouped (the group of the example input) while
Costco is left ungrouped. -/
theorem c6_similarity_grouping :
    (∀ (merchants : List String) (counts : String → Nat), merchants.Nodup →
      (∀ a b, a ∈ merchants → b ∈ merchants → a ≠ b →
          normalizeKey a = normalizeKey b →
          ∃ g, g ∈ findSimilarMerchants merchants counts ∧
            a ∈ gnames g ∧ b ∈ gnames g) ∧
      (∀ a, a ∈ merchants →
          (∀ b, b ∈ merchants → b ≠ a → normalizeKey b ≠ normalizeKey a) →
          ∀ g, g ∈ findSimilarMerchants merchants counts → a ∉ gnames g)) ∧
    findSimilarMerchants thMerchants thCounts =
      [MGroup.mk timTok [(thA, 3), (thB, 1)]] := by
  constructor
  · intro merchants counts hnd
    set all := merchants.map (fun s => NMerchant.mk s (normalizeKey s) (counts s))
      with hall
    have hmap : all.map NMerchant.original = merchants := by
      simp [hall, List.map_map, Function.comp_def]
    have hN : (all.map NMerchant.original).Nodup := by rw [hmap]; exact hnd
    have hfs : findSimilarMerchants merchants counts = groupLoop all all [] [] := rfl
    have hspec := groupLoop_spec all hN all [] [] (fun _ h => h)
      (by simp) (by simp) (fun x hx hnx _ => absurd hx hnx)
    constructor
    · intro a b ha hb hab hkey
      have hxa : NMerchant.mk a (normalizeKey a) (counts a) ∈ all := by
        rw [hall]; exact List.mem_map_of_mem _ ha
      have hxb : NMerchant.mk b (normalizeKey b) (counts b) ∈ all := by
        rw [hall]; exact List.mem_map_of_mem _ hb
      have hpart : HasPartner all (NMerchant.mk a (normalizeKey a) (counts a)) :=
        ⟨NMerchant.mk b (normalizeKey b) (counts b), hxb, hkey.symm,
         fun h => hab ((show b = a from h)).symm⟩
      obtain ⟨g, hg, hmem⟩ := hspec.2 _ hxa hpart
      obtain ⟨k, hk, -, -⟩ := hspec.1 g hg
      have hka : normalizeKey a = k := (hk _ hxa).mp hmem
      have hbmem : b ∈ gnames g := (hk _ hxb).mpr (hkey.symm.trans hka)
      exact ⟨g, by rwa [hfs], hmem, hbmem⟩
    · intro a ha hnocol g hg hmem
      rw [hfs] at hg
      obtain ⟨k, hk, hfrom, x0, y0, hx0, hy0, hne, hm0, hm1⟩ := hspec.1 g hg
      have hxa : NMerchant.mk a (normalizeKey a) (counts a) ∈ all := by
        rw [hall]; exact List.mem_map_of_mem _ ha
      have hka : normalizeKey a = k := (hk _ hxa).mp hmem
      have hx0' : x0 ∈ merchants.map (fun s => NMerchant.mk s (normalizeKey s) (counts s)) := by
        rw [← hall]; exact hx0
      have hy0' : y0 ∈ merchants.map (fun s => NMerchant.mk s (normalizeKey s) (counts s)) := by
        rw [← hall]; exact hy0
      obtain ⟨s0, hs0, hx0e⟩ := List.mem_map.mp hx0'
      obtain ⟨s1, hs1, hy0e⟩ := List.mem_map.mp hy0'
      subst hx0e
      subst hy0e
      have hk0 : normalizeKey s0 = k := (hk _ hx0).mp hm0
      have hk1 : normalizeKey s1 = k := (hk _ hy0).mp hm1
      by_cases h0 : s0 = a
      · subst h0
        exact hnocol s1 hs1 (fun h => hne h.symm) (hk1.trans hka.symm)
      · exact hnocol s0 hs0 h0 (hk0.trans hka.symm)
  · decide

theorem c6_witness :
    thMerchants.Nodup ∧ thA ≠ thB ∧ normalizeKey thA = normalizeKey thB ∧
    ∃ g, g ∈ findSimilarMerchants thMerchants thCounts ∧
      thA ∈ gnames g ∧ thB ∈ gnames g := by
  refine ⟨by decide, by decide, by decide, ?_⟩
  exact (c6_similarity_grouping.1 thMerchants thCounts (by decide)).1 thA thB
    (by decide) (by decide) (by decide) (by decide)
